import Mathlib

/-!
Verification development for the coderdojo-guide-generator repository.

The Python sources are shallowly embedded: strings are modelled as `List Char`
(Python strings are sequences of code points), Python `set` as `Finset String`,
dictionaries as association lists with insertion-order semantics, and file
system effects as explicit record fields (`files`, `fileExists`).  External
collaborators (the MD5 digest, the translation provider, the browser capture)
are parameters: no claim depends on their internals, only on how the embedded
code routes their results.
-/

/-! ## Generic helpers -/

/-- Python's default `str.strip` whitespace class (ASCII part). -/
def pyIsSpace (c : Char) : Bool :=
  c = ' ' || c = '\t' || c = '\n' || c = '\r' || c = '\x0b' || c = '\x0c'

/-- Python `s.strip()` on a list of characters. -/
def pyStrip (l : List Char) : List Char :=
  ((l.dropWhile pyIsSpace).reverse.dropWhile pyIsSpace).reverse

/-- Python `s[:pos] + ins + s[pos:]`. -/
def insertAt (l : List Char) (pos : Nat) (ins : List Char) : List Char :=
  l.take pos ++ ins ++ l.drop pos

/-- Python f-string `f"{n:03d}"`: decimal digits of `n`, zero padded to width 3. -/
def pad3 (n : Nat) : List Char :=
  let d := (Nat.repr n).data
  List.replicate (3 - d.length) '0' ++ d

/-! ## `urllib.parse.urlsplit`, restricted to scheme/netloc recognition

Models CPython's `urlsplit` far enough to decide
`not parsed.scheme or not parsed.netloc` (qrcode_processor.py line 86):
leading C0-control-or-space stripping, removal of tab/CR/LF, scheme
extraction (leading ASCII letter followed by letters, digits, `+-.` up to the
first `:`), and netloc extraction (after `//`, up to `/`, `?` or `#`). -/

/-- Characters allowed after the first character of a URL scheme. -/
def schemeChars (c : Char) : Bool :=
  c.isAlpha || c.isDigit || c = '+' || c = '-' || c = '.'

/-- `bool(parsed.scheme) and bool(parsed.netloc)` for `urlparse(url)`. -/
def validUrl (url : List Char) : Bool :=
  let u0 := url.dropWhile (fun c => c.toNat ≤ 32)
  let u := u0.filter (fun c => !(c = '\t' || c = '\r' || c = '\n'))
  let p :=
    match u.findIdx? (fun c => c = ':') with
    | some i =>
      if 0 < i && (u.headD ' ').isAlpha && ((u.take i).drop 1).all schemeChars
      then (true, u.drop (i + 1)) else (false, u)
    | none => (false, u)
  let netloc :=
    if p.2.take 2 = ['/', '/']
    then (p.2.drop 2).takeWhile (fun c => !(c = '/' || c = '?' || c = '#'))
    else []
  p.1 && !netloc.isEmpty

/-! ## qrcode_processor.py -/

/-- Configuration reaching `process_markdown_links`.  `guide_name` is
`output_dir.name`; `scale` is `settings.QRCODE_SCALE` (a Python float with
default `1.0`, modelled as a rational); `urlHash` abstracts
`hashlib.md5(url.encode()).hexdigest()[:8]` — the claims depend only on the
digest being a function of the URL, never on its value. -/
structure QRConfig where
  guide_name : List Char
  scale : ℚ := 1
  urlHash : List Char → List Char

/-- `QRCodeGenerator.get_qr_filename` (qrcode_processor.py lines 54-68):
`f"qr_{index:03d}_{url_hash}.png"`. -/
def get_qr_filename (cfg : QRConfig) (url : List Char) (index : Nat) : List Char :=
  "qr_".data ++ pad3 index ++ "_".data ++ cfg.urlHash url ++ ".png".data

/-- The generator's mutable state: the in-memory `_cache` (URL → filename) and
the set of PNG files written to the `qrcodes` directory, in creation order. -/
structure GenState where
  cache : List (List Char × List Char)
  files : List (List Char)
deriving DecidableEq

/-- Initial generator state (fresh `QRCodeGenerator`). -/
def emptyGen : GenState := ⟨[], []⟩

/-- Association-list lookup (Python `dict` access, keys unique). -/
def lookupKey {β : Type} (k : List Char) : List (List Char × β) → Option β
  | [] => none
  | (k', v) :: rest => if k' = k then some v else lookupKey k rest

/-- `QRCodeGenerator.generate_qr_code` (qrcode_processor.py lines 70-124).
Returns the name of the PNG the returned path points at (the caller's
`qr_path` is `output_dir/"qrcodes"/<name>`), or `none` for an invalid URL.
On a cache hit the previously written file's name is returned and no new file
is created; otherwise `filename` is written and cached. -/
def generate_qr_code (st : GenState) (url fname : List Char) :
    Option (List Char) × GenState :=
  if !validUrl url then (none, st)
  else
    match lookupKey url st.cache with
    | some cached => (some cached, st)
    | none => (some fname, ⟨st.cache ++ [(url, fname)], st.files ++ [fname]⟩)

/-- One regex match of a link in the markdown: `start`/`stop` are
`match.start()`/`match.end()`, `url` the captured URL group. -/
structure LinkMatch where
  start : Nat
  stop : Nat
  url : List Char
deriving DecidableEq, Inhabited, Repr

/-- Attempt to match `\[([^\]]+)\]\(([^)]+)\)` at the head of `l`
(both character classes are maximal-munch with no possible backtracking).
Returns the matched length and the URL group. -/
def tryStd (l : List Char) : Option (Nat × List Char) :=
  match l with
  | [] => none
  | c :: rest =>
    if c = '[' then
      let text := rest.takeWhile (fun d => d ≠ ']')
      if text.length = 0 then none
      else
        match rest.drop text.length with
        | c1 :: c2 :: rest2 =>
          if c1 = ']' && c2 = '(' then
            let url := rest2.takeWhile (fun d => d ≠ ')')
            if url.length = 0 then none
            else
              match rest2.drop url.length with
              | c3 :: _ => if c3 = ')' then some (text.length + url.length + 4, url) else none
              | [] => none
          else none
        | _ => none
    else none

/-- Attempt to match `<(https?://[^>]+)>` at the head of `l`. -/
def tryAuto (l : List Char) : Option (Nat × List Char) :=
  match l with
  | [] => none
  | c :: rest =>
    if c = '<' then
      let body := rest.takeWhile (fun d => d ≠ '>')
      match rest.drop body.length with
      | c1 :: _ =>
        if c1 = '>' &&
            (("https://".data.isPrefixOf body && decide (8 < body.length)) ||
             ("http://".data.isPrefixOf body && decide (7 < body.length)))
        then some (body.length + 2, body) else none
      | [] => none
    else none

/-- `re.finditer` driver: try a match at every position, continue after each
match (fuelled by the input length so that the kernel can evaluate it). -/
def finditerAux (try? : List Char → Option (Nat × List Char)) :
    Nat → List Char → Nat → List LinkMatch
  | 0, _, _ => []
  | _ + 1, [], _ => []
  | fuel + 1, c :: rest, pos =>
    match try? (c :: rest) with
    | some (n, url) =>
      ⟨pos, pos + n, url⟩ :: finditerAux try? fuel ((c :: rest).drop n) (pos + n)
    | none => finditerAux try? fuel rest (pos + 1)

/-- `list(link_pattern.finditer(markdown))` (qrcode_processor.py line 156). -/
def findStd (l : List Char) : List LinkMatch := finditerAux tryStd l.length l 0

/-- `list(autolink_pattern.finditer(markdown))` (qrcode_processor.py line 159). -/
def findAuto (l : List Char) : List LinkMatch := finditerAux tryAuto l.length l 0

/-- Stable insertion of a match into a start-sorted list (after equal keys). -/
def insertByStart (m : LinkMatch) : List LinkMatch → List LinkMatch
  | [] => [m]
  | x :: xs => if m.start ≤ x.start then m :: x :: xs else x :: insertByStart m xs

/-- Stable sort by match start (Python `list.sort(key=lambda x: x[2])`). -/
def sortByStart : List LinkMatch → List LinkMatch
  | [] => []
  | x :: xs => insertByStart x (sortByStart xs)

/-- `all_matches`, sorted by position (qrcode_processor.py lines 170-178). -/
def allMatches (md : List Char) : List LinkMatch :=
  sortByStart (findStd md ++ findAuto md)

/-- The injected reference string `qr_markdown` (qrcode_processor.py
lines 214-222): `' <img src="<guide>/qrcodes/<fname>">'`, with a `width`
attribute when `QRCODE_SCALE != 1.0`. -/
def qrImgString (cfg : QRConfig) (fname : List Char) : List Char :=
  let relPath := cfg.guide_name ++ "/qrcodes/".data ++ fname
  if cfg.scale ≠ 1 then
    " <img src=\"".data ++ relPath ++ "\" width=\"".data ++
      (Nat.repr (Int.toNat ⌊(100 : ℚ) * cfg.scale⌋)).data ++ "\">".data
  else
    " <img src=\"".data ++ relPath ++ "\">".data

/-- The insertion string for the enumerated match `(idx, m)`. -/
def insStrOf (cfg : QRConfig) (p : Nat × LinkMatch) : List Char :=
  qrImgString cfg (get_qr_filename cfg p.2.url p.1)

/-- `QRCodeInfo` (qrcode_processor.py lines 15-21). -/
structure QRInfo where
  url : List Char
  filename : List Char
  path : List Char
  index : Nat
deriving DecidableEq

/-- The `for idx, (match_type, match, _) in enumerate(all_matches, start=1)`
loop of `process_markdown_links` (qrcode_processor.py lines 188-231), over the
already-enumerated match list. -/
def processLoop (cfg : QRConfig) :
    List (Nat × LinkMatch) → List Char → Nat → GenState → List QRInfo →
    List Char × List QRInfo × GenState
  | [], md, _, st, infos => (md, infos, st)
  | (idx, m) :: rest, md, off, st, infos =>
    let fname := get_qr_filename cfg m.url idx
    match generate_qr_code st m.url fname with
    | (none, st') => processLoop cfg rest md off st' infos
    | (some ret, st') =>
      let info : QRInfo := ⟨m.url, fname, "qrcodes/".data ++ ret, idx⟩
      let ins := qrImgString cfg fname
      processLoop cfg rest (insertAt md (m.stop + off) ins) (off + ins.length)
        st' (infos ++ [info])

/-- `process_markdown_links` (qrcode_processor.py lines 127-235).  Returns the
modified markdown, the `QRCodeInfo` list, and the generator state (whose
`files` component records the PNG files written). -/
def process_markdown_links (cfg : QRConfig) (md : List Char) :
    List Char × List QRInfo × GenState :=
  if md = [] ∨ pyStrip md = [] then (md, [], emptyGen)
  else
    let std := findStd md
    let auto := findAuto md
    if std = [] ∧ auto = [] then (md, [], emptyGen)
    else processLoop cfg (List.enumFrom 1 (sortByStart (std ++ auto))) md 0 emptyGen []

/-- The expected shape of the processed markdown: the original text with each
valid match's reference string spliced in right after the match. -/
def expectedOut (cfg : QRConfig) (md : List Char) :
    Nat → List (Nat × LinkMatch) → List Char
  | base, [] => md.drop base
  | base, (idx, m) :: rest =>
    if validUrl m.url then
      (md.drop base).take (m.stop - base) ++ insStrOf cfg (idx, m) ++
        expectedOut cfg md m.stop rest
    else expectedOut cfg md base rest

/-- Total inserted length contributed by the valid matches among the first `k`
enumerated matches. -/
def shiftFrom (cfg : QRConfig) : List (Nat × LinkMatch) → Nat → Nat
  | _, 0 => 0
  | [], _ + 1 => 0
  | p :: rest, k + 1 =>
    (if validUrl p.2.url then (insStrOf cfg p).length else 0) + shiftFrom cfg rest k

/-- The `(url, index)` pairs of the matches that get a QR code. -/
def validUrlIdxPairs (md : List Char) : List (List Char × Nat) :=
  (List.enumFrom 1 (allMatches md)).filterMap
    (fun p => if validUrl p.2.url then some (p.2.url, p.1) else none)

/-! ## cli.py: `BatchState` and the `_batch` orchestrator -/

/-- The in-memory part of `BatchState` (cli.py lines 565-581). -/
structure BatchSt where
  completed : Finset String
  failed : Finset String
  index_url : String
deriving DecidableEq

/-- A freshly constructed `BatchState`. -/
def emptyBatchSt : BatchSt := ⟨∅, ∅, ""⟩

/-- `BatchState.mark_completed` (cli.py lines 613-617). -/
def mark_completed (s : BatchSt) (url : String) : BatchSt :=
  { s with completed := insert url s.completed, failed := s.failed.erase url }

/-- `BatchState.mark_failed` (cli.py lines 619-622): adds to `failed` and does
not touch `completed`. -/
def mark_failed (s : BatchSt) (url : String) : BatchSt :=
  { s with failed := insert url s.failed }

/-- `BatchState.is_completed` (cli.py lines 624-626). -/
def is_completed (s : BatchSt) (url : String) : Bool := url ∈ s.completed

/-- One call against a `BatchState`. -/
inductive BatchCall where
  | comp (url : String)
  | fail (url : String)
deriving DecidableEq

/-- Apply one call. -/
def applyCall (s : BatchSt) : BatchCall → BatchSt
  | .comp u => mark_completed s u
  | .fail u => mark_failed s u

/-- Apply a call sequence left to right. -/
def applyCalls (s : BatchSt) (calls : List BatchCall) : BatchSt :=
  calls.foldl applyCall s

/-- Checks that every `mark_failed` in the sequence hits a URL that is not in
`completed` at that moment — the only way `_batch` ever calls it, since failed
items come from the pending list. -/
def failsOnlyPending (s : BatchSt) : List BatchCall → Bool
  | [] => true
  | .comp u :: rest => failsOnlyPending (mark_completed s u) rest
  | .fail u :: rest => !(u ∈ s.completed : Bool) && failsOnlyPending (mark_failed s u) rest

/-- Observable outcome of a batch run: final state, whether the persisted
state file exists, and the run counters of `_batch`. -/
structure BatchWorld where
  state : BatchSt
  fileExists : Bool
  invocations : Nat
  successCount : Nat
  failCount : Nat
deriving DecidableEq

/-- The resume handling of `_batch` (cli.py lines 779-797): on `--resume` with
a loadable state file whose non-empty `index_url` differs from the current
index, the stale state is cleared; otherwise it is used.  Without `--resume`
a fresh state is used. -/
def batchResume (resume : Bool) (file : Option BatchSt) (index : String) :
    BatchSt × Bool :=
  if resume then
    match file with
    | some s =>
      if s.index_url ≠ "" ∧ s.index_url ≠ index then (emptyBatchSt, false) else (s, true)
    | none => (emptyBatchSt, file.isSome)
  else (emptyBatchSt, file.isSome)

/-- The processing loop of `_batch` (cli.py lines 858-898): each pending item
is one `_generate_single` invocation, then `mark_completed`/`mark_failed`
(each of which saves the state file). -/
def batchLoop (succeeds : String → Bool) : List String → BatchWorld → BatchWorld
  | [], w => w
  | u :: rest, w =>
    let w' : BatchWorld :=
      if succeeds u then
        { w with
            state := mark_completed w.state u
            fileExists := true
            invocations := w.invocations + 1
            successCount := w.successCount + 1 }
      else
        { w with
            state := mark_failed w.state u
            fileExists := true
            invocations := w.invocations + 1
            failCount := w.failCount + 1 }
    batchLoop succeeds rest w'

/-- `_batch` from storing the index URL onward (cli.py lines 836-928):
save the state, filter out completed tutorials, return early if nothing is
pending, otherwise run the loop and call `state.clear()` (which deletes the
state file and empties the sets) exactly when `fail_count == 0`. -/
def runBatchCore (index : String) (tutorials : List String)
    (succeeds : String → Bool) (s0 : BatchSt) : BatchWorld :=
  let s1 := { s0 with index_url := index }
  let w0 : BatchWorld := ⟨s1, true, 0, 0, 0⟩
  let pending := tutorials.filter (fun t => !is_completed s1 t)
  if pending.isEmpty then w0
  else
    let w := batchLoop succeeds pending w0
    if w.failCount = 0 then
      { w with
          state := emptyBatchSt
          fileExists := false }
    else w

/-- A full `_batch` run: resume handling followed by the core. -/
def runBatch (resume : Bool) (file : Option BatchSt) (index : String)
    (tutorials : List String) (succeeds : String → Bool) : BatchWorld :=
  runBatchCore index tutorials succeeds (batchResume resume file index).1

/-! ## Shared content model (sources/base.py `ExtractedContent`) -/

/-- One content element of a section, as the detector sees it: its string form
`str(element)` and the `src` attributes of the `<img>` tags it contains (the
latter produced by the HTML parser, which is an external collaborator). -/
structure ContentElem where
  html : String
  imgSrcs : List String := []
deriving DecidableEq, Inhabited

/-- One entry of `ExtractedContent.sections`. -/
structure SectionRec where
  heading : String
  content : List ContentElem
deriving DecidableEq, Inhabited

/-- One entry of `ExtractedContent.images`. -/
structure ImageDict where
  src : String
  alt : String := ""
  title : String := ""
  local_path : Option String := none
  makecode_url : Option String := none
  original_src : Option String := none
  replaced_with_dutch : Bool := false
deriving DecidableEq, Inhabited

/-- `ExtractedContent` (sources/base.py lines 23-44), with `metadata` as an
insertion-ordered string dictionary. -/
structure ContentRec where
  title : String
  sections : List SectionRec
  images : List ImageDict
  metadata : List (String × String)
deriving DecidableEq, Inhabited

/-- `metadata.get(k)`. -/
def metaGet (k : String) : List (String × String) → Option String
  | [] => none
  | (k', v) :: rest => if k' = k then some v else metaGet k rest

/-- `metadata[k] = v` (update in place, append if new). -/
def metaSet (k v : String) : List (String × String) → List (String × String)
  | [] => [(k, v)]
  | (k', v') :: rest => if k' = k then (k, v) :: rest else (k', v') :: metaSet k v rest

/-! ## translator.py `translate_content`

The translation provider and the BeautifulSoup text-node editing are external
collaborators, abstracted as `trText` (may fail) and `trElem`.  Python object
identity is made explicit with a heap of `ContentRec` values addressed by
index; `deepcopy` allocates a fresh cell, and — mirroring the source, where
every single edit targets `translated` — all edits are applied to the fresh
cell.  The `Option String` component is the pending `TranslationError`. -/

/-- Translate the elements of one section, stopping at the first failure. -/
def trElems (trElem : ContentElem → Except String ContentElem) :
    List ContentElem → List ContentElem × Option String
  | [] => ([], none)
  | e :: rest =>
    match trElem e with
    | .error err => (e :: rest, some err)
    | .ok e' =>
      let (rest', err?) := trElems trElem rest
      (e' :: rest', err?)

/-- Translate the sections in order (heading, then content elements),
stopping at the first failure. -/
def trSections (trText : String → Except String String)
    (trElem : ContentElem → Except String ContentElem) :
    List SectionRec → List SectionRec × Option String
  | [] => ([], none)
  | s :: rest =>
    match (if s.heading = "" then Except.ok s.heading else trText s.heading) with
    | .error err => (s :: rest, some err)
    | .ok h' =>
      match trElems trElem s.content with
      | (els, some err) => ({ s with heading := h', content := els } :: rest, some err)
      | (els, none) =>
        let (rest', err?) := trSections trText trElem rest
        ({ s with heading := h', content := els } :: rest', err?)

/-- The edit script of `translate_content` (translator.py lines 288-356)
applied to the deep copy: title (with title fixes folded into `trText`),
description, sections, then the language metadata tags. -/
def translateEdits (trText : String → Except String String)
    (trElem : ContentElem → Except String ContentElem)
    (source target : String) (c : ContentRec) : ContentRec × Option String :=
  match trText c.title with
  | .error err => (c, some err)
  | .ok t' =>
    let c1 := { c with title := t' }
    match metaGet "description" c1.metadata with
    | some d =>
      if d ≠ "" then
        match trText d with
        | .error err => (c1, some err)
        | .ok d' => translateEditsTail trText trElem source target
            { c1 with metadata := metaSet "description" d' c1.metadata }
      else translateEditsTail trText trElem source target c1
    | none => translateEditsTail trText trElem source target c1
where
  /-- Sections and final metadata tags. -/
  translateEditsTail (trText : String → Except String String)
      (trElem : ContentElem → Except String ContentElem)
      (source target : String) (c : ContentRec) : ContentRec × Option String :=
    match trSections trText trElem c.sections with
    | (secs, some err) => ({ c with sections := secs }, some err)
    | (secs, none) =>
      ({ c with
          sections := secs
          metadata := metaSet "original_language" source
            (metaSet "language" target c.metadata) }, none)

/-- `translate_content` (translator.py lines 260-364) over an explicit heap:
if translation is disabled the input reference is returned untouched;
otherwise `deepcopy` allocates a fresh cell at `heap.length`, the edit script
runs against that cell only, and either the new reference is returned or a
`TranslationError` is raised (`Except.error`), the heap keeping the partially
edited copy in both cases. -/
def translate_content (enabled : Bool) (trText : String → Except String String)
    (trElem : ContentElem → Except String ContentElem) (source target : String)
    (heap : List ContentRec) (r : Nat) : List ContentRec × Except String Nat :=
  if !enabled then (heap, .ok r)
  else
    let orig := heap.getD r default
    let (copyVal, err?) := translateEdits trText trElem source target orig
    match err? with
    | none => (heap ++ [copyVal], .ok heap.length)
    | some err => (heap ++ [copyVal], .error err)

/-! ## makecode_detector.py and makecode_replacer.py -/

/-- `MAKECODE_URL_PATTERN` match attempt at the head of `l`:
`https?://makecode\.microbit\.org/_[A-Za-z0-9]+` with `re.IGNORECASE`.
Returns length and matched text (original case). -/
def tryMC (l : List Char) : Option (Nat × List Char) :=
  let litOf : List Char → List Char → Option Nat := fun lit s =>
    if (s.take lit.length).map Char.toLower = lit then some lit.length else none
  let core := "://makecode.microbit.org/_".data
  let afterScheme : List Char → Nat → Option Nat := fun s n =>
    match litOf core (s.drop n) with
    | some m =>
      let tail := s.drop (n + m)
      let ident := tail.takeWhile (fun c => c.isAlpha || c.isDigit)
      if ident.length = 0 then none else some (n + m + ident.length)
    | none => none
  let tryLen : Option Nat :=
    match litOf "https".data l with
    | some n => afterScheme l n
    | none =>
      match litOf "http".data l with
      | some n => afterScheme l n
      | none => none
  tryLen.map (fun n => (n, l.take n))

/-- `findall` driver for `MAKECODE_URL_PATTERN` (fuelled). -/
def mcFindAux : Nat → List Char → List (List Char)
  | 0, _ => []
  | _ + 1, [] => []
  | fuel + 1, c :: rest =>
    match tryMC (c :: rest) with
    | some (n, txt) => txt :: mcFindAux fuel ((c :: rest).drop n)
    | none => mcFindAux fuel rest

/-- `MAKECODE_URL_PATTERN.findall(s)`. -/
def mcLinksIn (s : String) : List String :=
  (mcFindAux s.data.length s.data).map List.asString

/-- `list(dict.fromkeys(links))`: deduplicate preserving first occurrence. -/
def dedupKeepOrder (l : List String) : List String :=
  l.foldl (fun acc x => if x ∈ acc then acc else acc ++ [x]) []

/-- `MakeCodeImageDetector.find_makecode_links` (makecode_detector.py
lines 41-70): URLs from each heading and each content element, deduplicated
preserving order. -/
def find_makecode_links (sections : List SectionRec) : List String :=
  dedupKeepOrder (sections.flatMap
    (fun s => mcLinksIn s.heading ++ s.content.flatMap (fun e => mcLinksIn e.html)))

/-- Python `needle in hay` on strings. -/
def pyInStr (needle hay : String) : Bool := decide (needle.data <:+: hay.data)

/-- Python `s.lower()` (ASCII fragment). -/
def pyLower (s : String) : String := String.mk (s.data.map Char.toLower)

/-- `CODE_IMAGE_KEYWORDS` (makecode_detector.py lines 20-29). -/
def CODE_IMAGE_KEYWORDS : List String :=
  ["code", "program", "makecode", "scratch", "blocks", "script", "coding", "programma"]

/-- `CODE_SECTION_HEADINGS` (makecode_detector.py lines 32-39). -/
def CODE_SECTION_HEADINGS : List String :=
  ["code", "program", "makecode", "coding", "codeer", "programmeer"]

/-- `MakeCodeImageDetector._is_code_image` (makecode_detector.py lines 72-94). -/
def isCodeImage (img : ImageDict) : Bool :=
  let text := pyLower img.alt ++ " " ++ pyLower img.title ++ " " ++ pyLower img.src
  CODE_IMAGE_KEYWORDS.any (fun kw => pyInStr kw text)

/-- `MakeCodeImageDetector._is_code_section` (makecode_detector.py
lines 96-106). -/
def isCodeSection (heading : String) : Bool :=
  CODE_SECTION_HEADINGS.any (fun kw => pyInStr kw (pyLower heading))

/-- Insert-or-update into an insertion-ordered dictionary. -/
def dictUpsert {β : Type} (k : String) (v : β) :
    List (String × β) → List (String × β)
  | [] => [(k, v)]
  | (k', v') :: rest => if k' = k then (k, v) :: rest else (k', v') :: dictUpsert k v rest

/-- String-keyed dictionary lookup. -/
def lookupStr {β : Type} (k : String) : List (String × β) → Option β
  | [] => none
  | (k', v) :: rest => if k' = k then some v else lookupStr k rest

/-- Nat-keyed association lookup. -/
def lookupNat {β : Type} (k : Nat) : List (Nat × β) → Option β
  | [] => none
  | (k', v) :: rest => if k' = k then some v else lookupNat k rest

/-- `{img.get("src", ""): idx for idx, img in enumerate(all_images)}`. -/
def imageSrcToIdx (images : List ImageDict) : List (String × Nat) :=
  images.enum.foldl (fun d p => dictUpsert p.2.src p.1 d) []

/-- `MakeCodeImageDetector.find_code_images_in_sections`
(makecode_detector.py lines 108-141). -/
def find_code_images_in_sections (sections : List SectionRec)
    (images : List ImageDict) : List Nat :=
  let dict := imageSrcToIdx images
  sections.foldl
    (fun acc s =>
      if !isCodeSection s.heading then acc
      else
        s.content.foldl
          (fun acc e =>
            dict.foldl
              (fun acc p =>
                if p.1 ≠ "" && pyInStr p.1 e.html && !(p.2 ∈ acc : Bool) then
                  acc ++ [p.2]
                else acc)
              acc)
          acc)
    []

/-- Deduplicate naturals preserving first occurrence. -/
def dedupNat (l : List Nat) : List Nat :=
  l.foldl (fun acc x => if x ∈ acc then acc else acc ++ [x]) []

/-- Ascending insertion sort on naturals. -/
def sortNatAsc : List Nat → List Nat
  | [] => []
  | x :: xs =>
    let rec ins (n : Nat) : List Nat → List Nat
      | [] => [n]
      | y :: ys => if n ≤ y then n :: y :: ys else y :: ins n ys
    ins x (sortNatAsc xs)

/-- `MakeCodeImageDetector.match_images_to_links` (makecode_detector.py
lines 143-204): the keyword heuristic.  Returns the image-index → URL map as
an association list in image order. -/
def match_images_to_links (images : List ImageDict) (links : List String)
    (sections : Option (List SectionRec)) : List (Nat × String) :=
  if links.isEmpty then []
  else
    let keyword := (images.enum.filter (fun p => isCodeImage p.2)).map (·.1)
    let inSections :=
      match sections with
      | some secs => find_code_images_in_sections secs images
      | none => []
    let all := sortNatAsc (dedupNat (keyword ++ inSections))
    if all.isEmpty then []
    else
      all.enum.filterMap
        (fun p => if p.1 < links.length then some (p.2, links.getD p.1 "") else none)

/-- Modelled from the spec: `find_makecode_image_pairs` is imported by
`makecode_replacer.py` from `src.makecode_detector` but is not defined in the
available sources.  Spec section 4.3 heuristic 1 (adjacency): scan the content
blocks in order; for each recognized MakeCode link in a block, walk backward
through at most 3 preceding sibling blocks to the nearest one containing an
image and pair that image's source URL with the link; more distant images are
not matched.  The result is a `src → link` dictionary. -/
def find_makecode_image_pairs (blocks : List ContentElem) :
    List (String × String) :=
  let lookback := 3
  let nearestImg : Nat → Option String := fun i =>
    (List.range lookback).foldl
      (fun found back =>
        match found with
        | some s => some s
        | none =>
          if back + 1 ≤ i then
            match (blocks.getD (i - (back + 1)) default).imgSrcs with
            | [] => none
            | src :: _ => some src
          else none)
      none
  blocks.enum.foldl
    (fun d p =>
      (mcLinksIn p.2.html).foldl
        (fun d link =>
          match nearestImg p.1 with
          | some src => dictUpsert src link d
          | none => d)
        d)
    []

/-- The flattened content elements the replacer aggregates
(makecode_replacer.py lines 39-41). -/
def blocksOf (c : ContentRec) : List ContentElem :=
  c.sections.flatMap (·.content)

/-- `src_to_makecode` as computed by the replacer (makecode_replacer.py
lines 43-46). -/
def adjacencyPairs (c : ContentRec) : List (String × String) :=
  if (blocksOf c).isEmpty then [] else find_makecode_image_pairs (blocksOf c)

/-- `image_to_link_map` (makecode_replacer.py lines 54-59). -/
def replacer_image_link_map (c : ContentRec) : List (Nat × String) :=
  c.images.enum.filterMap
    (fun p => (lookupStr p.2.src (adjacencyPairs c)).map (fun l => (p.1, l)))

/-- `replace_makecode_screenshots` (makecode_replacer.py lines 18-99) with the
browser capture abstracted as `capPath` (link → screenshot file name) and
every requested capture succeeding. -/
def replace_makecode_screenshots (capPath : String → String) (c : ContentRec) :
    ContentRec :=
  let pairs := adjacencyPairs c
  if pairs.isEmpty then c
  else
    let imap := replacer_image_link_map c
    if imap.isEmpty then c
    else
      let images' := c.images.enum.map
        (fun p =>
          match lookupNat p.1 imap with
          | some link =>
            { p.2 with
                local_path := some (capPath link)
                makecode_url := some link
                original_src := some p.2.src
                replaced_with_dutch := true }
          | none => p.2)
      { c with
          images := images'
          metadata := metaSet "makecode_pairs_found" (Nat.repr pairs.length)
            (metaSet "makecode_replacements" (Nat.repr imap.length) c.metadata) }

/-- Boolean non-overlap check on a start-sorted match list: every match ends
no later than the next one starts. -/
def nonOverlapping : List LinkMatch → Bool
  | [] => true
  | [_] => true
  | a :: b :: t => (a.stop ≤ b.start : Bool) && nonOverlapping (b :: t)

/-! ## Concrete fixtures used by counterexamples and witnesses -/

/-- A concrete configuration: guide directory `guide`, default scale, a fixed
8-character digest (the claims hold or fail for every digest function). -/
def qrCfgFix : QRConfig := ⟨"guide".data, 1, fun _ => "aaaaaaaa".data⟩

/-- A document referencing the same valid URL twice. -/
def mdDupFix : List Char := "[a](https://example.com) [b](https://example.com)".data

/-- A document whose standard link's text contains an autolink, so the two
regex matches overlap. -/
def mdOverlapFix : List Char := "[see <https://a.com> ok](https://b.com)".data

/-- A document with a single standard link. -/
def mdSingleFix : List Char := "x [a](https://e.com) y".data

/-- A document in which the only image sits four blocks before the recognized
MakeCode link (outside the 3-block adjacency lookback) but carries the
keyword `code` in its alt text, so the keyword heuristic would match it. -/
def mcCexFix : ContentRec :=
  { title := "t"
    sections :=
      [⟨"Intro",
        [⟨"<img src=\"a.png\" alt=\"code blocks\">", ["a.png"]⟩,
         ⟨"<p>x</p>", []⟩, ⟨"<p>y</p>", []⟩, ⟨"<p>z</p>", []⟩,
         ⟨"<a href=\"https://makecode.microbit.org/_AbCd123\">open</a>", []⟩]⟩]
    images := [{ src := "a.png", alt := "code blocks" }]
    metadata := [] }

/-! # Theorems -/

/-! ## BatchState lemmas -/

theorem mark_completed_disjoint {s : BatchSt} (u : String)
    (h : Disjoint s.completed s.failed) :
    Disjoint (mark_completed s u).completed (mark_completed s u).failed := by
  rw [Finset.disjoint_left] at h ⊢
  intro a ha hb
  simp only [mark_completed, Finset.mem_insert, Finset.mem_erase] at ha hb
  rcases ha with rfl | ha
  · exact hb.1 rfl
  · exact h ha hb.2

theorem mark_failed_disjoint {s : BatchSt} {u : String} (hu : u ∉ s.completed)
    (h : Disjoint s.completed s.failed) :
    Disjoint (mark_failed s u).completed (mark_failed s u).failed := by
  rw [Finset.disjoint_left] at h ⊢
  intro a ha hb
  simp only [mark_failed, Finset.mem_insert] at ha hb
  rcases hb with rfl | hb
  · exact hu ha
  · exact h ha hb

theorem batchLoop_failCount (succeeds : String → Bool) :
    ∀ (pending : List String) (w : BatchWorld),
      (batchLoop succeeds pending w).failCount
        = w.failCount + pending.countP (fun u => !succeeds u) := by
  intro pending
  induction pending with
  | nil => intro w; simp [batchLoop]
  | cons u rest ih =>
    intro w
    cases hsu : succeeds u <;>
      simp [batchLoop, hsu, ih, List.countP_cons] <;> omega

theorem batchLoop_invocations (succeeds : String → Bool) :
    ∀ (pending : List String) (w : BatchWorld),
      (batchLoop succeeds pending w).invocations = w.invocations + pending.length := by
  intro pending
  induction pending with
  | nil => intro w; simp [batchLoop]
  | cons u rest ih =>
    intro w
    cases hsu : succeeds u <;> simp [batchLoop, hsu, ih] <;> omega

theorem batchLoop_fileExists (succeeds : String → Bool) :
    ∀ (pending : List String) (w : BatchWorld), pending ≠ [] →
      (batchLoop succeeds pending w).fileExists = true := by
  intro pending
  induction pending with
  | nil => intro w h; exact absurd rfl h
  | cons u rest ih =>
    intro w _
    rcases eq_or_ne rest [] with rfl | hne
    · cases hsu : succeeds u <;> simp [batchLoop, hsu]
    · cases hsu : succeeds u <;> simp only [batchLoop, hsu] <;> exact ih _ hne

theorem batchLoop_untouched (succeeds : String → Bool) (u : String) :
    ∀ (pending : List String) (w : BatchWorld),
      (∀ v ∈ pending, v ≠ u) → u ∈ w.state.completed →
      u ∈ (batchLoop succeeds pending w).state.completed ∧
        ((u ∈ (batchLoop succeeds pending w).state.failed) ↔ u ∈ w.state.failed) := by
  intro pending
  induction pending with
  | nil => intro w _ hc; exact ⟨hc, Iff.rfl⟩
  | cons v rest ih =>
    intro w hne hc
    have hvu : v ≠ u := hne v (List.mem_cons_self v rest)
    have hne' : ∀ x ∈ rest, x ≠ u := fun x hx => hne x (List.mem_cons_of_mem v hx)
    have huv : ¬u = v := fun h => hvu h.symm
    cases hsu : succeeds v
    · have hstep := ih
        { w with
            state := mark_failed w.state v
            fileExists := true
            invocations := w.invocations + 1
            failCount := w.failCount + 1 }
        hne' (by simpa [mark_failed] using hc)
      simp only [batchLoop, hsu] at *
      refine ⟨hstep.1, hstep.2.trans ?_⟩
      simp [mark_failed, Finset.mem_insert, huv]
    · have hstep := ih
        { w with
            state := mark_completed w.state v
            fileExists := true
            invocations := w.invocations + 1
            successCount := w.successCount + 1 }
        hne' (by simp [mark_completed, Finset.mem_insert, hc])
      simp only [batchLoop, hsu] at *
      refine ⟨hstep.1, hstep.2.trans ?_⟩
      simp [mark_completed, Finset.mem_erase, huv]

/-! ## Claim C3: completed/failed disjointness -/

/-- C3 counterexample: the claim "completed and failed are disjoint after each
call, for every sequence of mark_completed/mark_failed calls from the empty
state" is false: `mark_completed "u"` followed by `mark_failed "u"` leaves
`"u"` in both sets, because `mark_failed` does not discard the URL from
`completed` (cli.py lines 619-622). -/
theorem mark_completed_then_failed_not_disjoint :
    "u" ∈ (applyCalls emptyBatchSt [BatchCall.comp "u", BatchCall.fail "u"]).completed ∧
    "u" ∈ (applyCalls emptyBatchSt [BatchCall.comp "u", BatchCall.fail "u"]).failed ∧
    ¬Disjoint (applyCalls emptyBatchSt [BatchCall.comp "u", BatchCall.fail "u"]).completed
      (applyCalls emptyBatchSt [BatchCall.comp "u", BatchCall.fail "u"]).failed := by
  decide

/-- C3 amended: starting from a state with disjoint sets (in particular the
empty state), `completed` and `failed` stay disjoint after every call of any
sequence in which `mark_failed` is only applied to URLs not currently in
`completed` — which is how the `_batch` orchestrator calls it, since failed
items come from the pending (not-completed) list.  In general `mark_failed`
does not remove its URL from `completed`, so `mark_completed u` followed by
`mark_failed u` violates disjointness. -/
theorem batchstate_disjoint_of_fails_only_pending :
    ∀ (calls : List BatchCall) (s : BatchSt),
      Disjoint s.completed s.failed →
      failsOnlyPending s calls = true →
      ∀ n, Disjoint (applyCalls s (calls.take n)).completed
        (applyCalls s (calls.take n)).failed := by
  intro calls
  induction calls with
  | nil => intro s h0 _ n; simpa [applyCalls] using h0
  | cons c rest ih =>
    intro s h0 h n
    cases n with
    | zero => simpa [applyCalls] using h0
    | succ n =>
      cases c with
      | comp u =>
        simp only [failsOnlyPending] at h
        simpa [applyCalls, List.take, applyCall] using
          ih (mark_completed s u) (mark_completed_disjoint u h0) h n
      | fail u =>
        simp only [failsOnlyPending, Bool.and_eq_true, Bool.not_eq_true',
          decide_eq_false_iff_not] at h
        simpa [applyCalls, List.take, applyCall] using
          ih (mark_failed s u) (mark_failed_disjoint h.1 h0) h.2 n

/-- Witness for the amended C3 theorem at a concrete call sequence. -/
theorem batchstate_disjoint_of_fails_only_pending_witness :
    Disjoint (applyCalls emptyBatchSt
        ([BatchCall.fail "b", BatchCall.comp "b", BatchCall.comp "a"].take 2)).completed
      (applyCalls emptyBatchSt
        ([BatchCall.fail "b", BatchCall.comp "b", BatchCall.comp "a"].take 2)).failed :=
  batchstate_disjoint_of_fails_only_pending
    [BatchCall.fail "b", BatchCall.comp "b", BatchCall.comp "a"]
    emptyBatchSt (by decide) (by decide) 2

/-! ## Claim C4: resume idempotence -/

/-- C4: a second batch run against an unchanged index in which every tutorial
URL is already completed filters everything out, returns early, leaves
`completed` unchanged and invokes the per-item pipeline zero times
(cli.py lines 841-845). -/
theorem batch_rerun_all_completed_noop :
    ∀ (s : BatchSt) (index : String) (tutorials : List String)
      (succeeds : String → Bool),
      s.index_url = index →
      (∀ t ∈ tutorials, t ∈ s.completed) →
      (runBatch true (some s) index tutorials succeeds).invocations = 0 ∧
      (runBatch true (some s) index tutorials succeeds).state.completed
        = s.completed := by
  intro s index tutorials succeeds hidx hall
  have hres : (batchResume true (some s) index).1 = s := by
    simp [batchResume, hidx]
  have hfilter :
      tutorials.filter (fun t => !is_completed { s with index_url := index } t) = [] := by
    rw [List.filter_eq_nil_iff]
    intro t ht
    simp [is_completed, hall t ht]
  simp only [runBatch, runBatchCore, hres, hfilter]
  simp

/-- Witness for C4 at a concrete completed state. -/
theorem batch_rerun_all_completed_noop_witness :
    (runBatch true (some ⟨{"u"}, ∅, "i"⟩) "i" ["u"] (fun _ => true)).invocations = 0 ∧
    (runBatch true (some ⟨{"u"}, ∅, "i"⟩) "i" ["u"] (fun _ => true)).state.completed
      = (⟨{"u"}, ∅, "i"⟩ : BatchSt).completed :=
  batch_rerun_all_completed_noop ⟨{"u"}, ∅, "i"⟩ "i" ["u"] (fun _ => true)
    (by decide) (by decide)

/-! ## Claim C5: state-file deletion condition -/

/-- C5 counterexample: the claim "the state file is deleted iff `failed` is
empty" is false.  Resuming with `completed = {"u"}`, `failed = ∅` over the
unchanged index and tutorial list `["u"]` hits the all-already-completed early
return (cli.py lines 843-845): `failed` is empty yet the state file remains. -/
theorem batch_early_return_keeps_state_file :
    (runBatch true (some ⟨{"u"}, ∅, "i"⟩) "i" ["u"] (fun _ => true)).state.failed = ∅ ∧
    (runBatch true (some ⟨{"u"}, ∅, "i"⟩) "i" ["u"] (fun _ => true)).fileExists = true := by
  decide

/-- C5 amended: the state file is deleted at the end of a run iff the run had
at least one pending item and no item processed in the current run failed
(`fail_count == 0`, cli.py lines 926-928) — not iff `failed` is empty: the
early-return path keeps the file even with empty `failed`, and `clear()` can
delete it while stale `failed` entries (URLs no longer in the tutorial list)
are discarded with it. -/
theorem batch_state_file_deleted_iff :
    ∀ (resume : Bool) (file : Option BatchSt) (index : String)
      (tutorials : List String) (succeeds : String → Bool),
      (runBatch resume file index tutorials succeeds).fileExists = false ↔
        (tutorials.filter
            (fun t => !is_completed
              { (batchResume resume file index).1 with index_url := index } t) ≠ [] ∧
         (tutorials.filter
            (fun t => !is_completed
              { (batchResume resume file index).1 with index_url := index } t)).countP
            (fun u => !succeeds u) = 0) := by
  intro resume file index tutorials succeeds
  simp only [runBatch, runBatchCore]
  set s0 := (batchResume resume file index).1 with hs0
  set pending :=
    tutorials.filter (fun t => !is_completed { s0 with index_url := index } t) with hpend
  set w0 : BatchWorld := ⟨{ s0 with index_url := index }, true, 0, 0, 0⟩ with hw0
  rcases eq_or_ne pending [] with hp | hp
  · rw [hp]; simp
  · have hpe : pending.isEmpty = false := by
      rw [← Bool.not_eq_true, List.isEmpty_iff]; exact hp
    have hfail := batchLoop_failCount succeeds pending w0
    have hw0f : w0.failCount = 0 := rfl
    rw [hw0f, Nat.zero_add] at hfail
    by_cases hz : pending.countP (fun u => !succeeds u) = 0
    · have hfz : (batchLoop succeeds pending w0).failCount = 0 := by rw [hfail, hz]
      simp [hpe, hfz, hp, hz]
    · have hfz : (batchLoop succeeds pending w0).failCount ≠ 0 := by
        rw [hfail]; exact hz
      simp [hpe, hfz, hz, batchLoop_fileExists succeeds pending w0 hp]

/-- Witness for the amended C5 theorem at a concrete fresh run. -/
theorem batch_state_file_deleted_iff_witness :
    (runBatch false none "i" ["a"] (fun _ => true)).fileExists = false ↔
      (["a"].filter
          (fun t => !is_completed
            { (batchResume false none "i").1 with index_url := "i" } t) ≠ [] ∧
       (["a"].filter
          (fun t => !is_completed
            { (batchResume false none "i").1 with index_url := "i" } t)).countP
          (fun u => !(fun _ : String => true) u) = 0) :=
  batch_state_file_deleted_iff false none "i" ["a"] (fun _ => true)

/-! ## Claim C6: completed items never transition to failed -/

/-- C6: during a batch run a URL `u` that is in `completed` when the
processing loop starts is filtered out of the pending list, so after any
prefix `l₁` of the loop `u` is still in `completed` and its membership in
`failed` is exactly what it was at the start — `mark_failed` is never applied
to it (cli.py lines 840-841, 888-893).  Conversely a URL in `failed` moves to
`completed` (and out of `failed`) when `mark_completed` runs for it on a
later resume attempt. -/
theorem batch_completed_never_fails :
    ∀ (index : String) (tutorials : List String) (succeeds : String → Bool)
      (s : BatchSt) (u : String) (l₁ l₂ : List String),
      u ∈ s.completed →
      tutorials.filter (fun t => !is_completed { s with index_url := index } t)
        = l₁ ++ l₂ →
      (u ∈ (batchLoop succeeds l₁
          ⟨{ s with index_url := index }, true, 0, 0, 0⟩).state.completed ∧
        ((u ∈ (batchLoop succeeds l₁
          ⟨{ s with index_url := index }, true, 0, 0, 0⟩).state.failed) ↔
            u ∈ s.failed)) ∧
      (∀ (s' : BatchSt) (v : String), v ∈ s'.failed →
        v ∈ (mark_completed s' v).completed ∧ v ∉ (mark_completed s' v).failed) := by
  intro index tutorials succeeds s u l₁ l₂ hc hsplit
  constructor
  · have hne : ∀ v ∈ l₁, v ≠ u := by
      intro v hv
      have hvp : v ∈ tutorials.filter
          (fun t => !is_completed { s with index_url := index } t) := by
        rw [hsplit]; exact List.mem_append_left l₂ hv
      have := List.of_mem_filter hvp
      simp only [is_completed, Bool.not_eq_true', decide_eq_false_iff_not] at this
      intro h; exact this (h ▸ hc)
    exact batchLoop_untouched succeeds u l₁ _ hne hc
  · intro s' v hv
    refine ⟨Finset.mem_insert_self v _, ?_⟩
    simp [mark_completed, Finset.mem_erase]

/-- Witness for C6 at a concrete run where the pending item fails. -/
theorem batch_completed_never_fails_witness :
    ((("u" : String) ∈ (batchLoop (fun _ => false) ["v"]
        ⟨{ (⟨{"u"}, ∅, "i"⟩ : BatchSt) with index_url := "i" }, true, 0, 0, 0⟩).state.completed ∧
      ((("u" : String) ∈ (batchLoop (fun _ => false) ["v"]
        ⟨{ (⟨{"u"}, ∅, "i"⟩ : BatchSt) with index_url := "i" }, true, 0, 0, 0⟩).state.failed) ↔
          ("u" : String) ∈ (⟨{"u"}, ∅, "i"⟩ : BatchSt).failed)) ∧
     (∀ (s' : BatchSt) (v : String), v ∈ s'.failed →
        v ∈ (mark_completed s' v).completed ∧ v ∉ (mark_completed s' v).failed)) :=
  batch_completed_never_fails "i" ["u", "v"] (fun _ => false) ⟨{"u"}, ∅, "i"⟩ "u"
    ["v"] [] (by decide) (by decide)

/-! ## Claim C9: translate_content does not mutate its argument -/

/-- C9: `translate_content` never mutates its input record: with translation
enabled every edit is applied to the `deepcopy` cell allocated at
`heap.length`, so the cell at `r` is unchanged both when the call succeeds
(returning the distinct fresh reference) and when it raises
`TranslationError`; with translation disabled the heap is untouched and the
input reference itself is returned. -/
theorem translate_content_preserves_input :
    ∀ (enabled : Bool) (trText : String → Except String String)
      (trElem : ContentElem → Except String ContentElem) (source target : String)
      (heap : List ContentRec) (r : Nat),
      r < heap.length →
      ((translate_content enabled trText trElem source target heap r).1.getD r default
          = heap.getD r default) ∧
      (∀ r', (translate_content enabled trText trElem source target heap r).2
          = Except.ok r' → enabled = true → r' = heap.length ∧ r' ≠ r) ∧
      (enabled = false →
        translate_content enabled trText trElem source target heap r
          = (heap, Except.ok r)) := by
  intro enabled trText trElem source target heap r hr
  cases enabled with
  | false => exact ⟨rfl, fun r' _ h => Bool.noConfusion h, fun _ => rfl⟩
  | true =>
    simp only [translate_content, Bool.not_true, Bool.false_eq_true, if_false]
    rcases htr : translateEdits trText trElem source target (heap.getD r default)
      with ⟨copyVal, err?⟩
    cases err? with
    | none =>
      refine ⟨List.getD_append _ _ _ _ hr, ?_, fun h => Bool.noConfusion h⟩
      intro r' h _
      have h2 : Except.ok (ε := String) heap.length = Except.ok r' := h
      have hlen : heap.length = r' := by injection h2
      exact ⟨hlen.symm, by omega⟩
    | some e =>
      refine ⟨List.getD_append _ _ _ _ hr, ?_, fun h => Bool.noConfusion h⟩
      intro r' h _
      have h2 : Except.error (α := Nat) e = Except.ok r' := h
      exact Except.noConfusion h2

/-- Witness for C9 at a concrete one-record heap. -/
theorem translate_content_preserves_input_witness :
    ((translate_content true (fun s => Except.ok s) (fun e => Except.ok e) "en" "nl"
        [⟨"t", [], [], []⟩] 0).1.getD 0 default
        = [(⟨"t", [], [], []⟩ : ContentRec)].getD 0 default) ∧
    (∀ r', (translate_content true (fun s => Except.ok s) (fun e => Except.ok e) "en" "nl"
        [⟨"t", [], [], []⟩] 0).2 = Except.ok r' → true = true →
        r' = [(⟨"t", [], [], []⟩ : ContentRec)].length ∧ r' ≠ 0) ∧
    (true = false →
      translate_content true (fun s => Except.ok s) (fun e => Except.ok e) "en" "nl"
        [⟨"t", [], [], []⟩] 0 = ([⟨"t", [], [], []⟩], Except.ok 0)) :=
  translate_content_preserves_input true (fun s => Except.ok s) (fun e => Except.ok e)
    "en" "nl" [⟨"t", [], [], []⟩] 0 (by decide)

/-! ## Claim C7: matcher precedence in the replacer -/

/-- C7 counterexample: the claim that the keyword heuristic is consulted when
the adjacency heuristic finds nothing is false.  In `mcCexFix` the adjacency
pairing is empty (the image is outside the lookback window) while the keyword
heuristic (`match_images_to_links`) would pair image 0 with the MakeCode link;
yet `replace_makecode_screenshots` performs no replacement at all — it never
falls back to `match_images_to_links`. -/
theorem replacer_never_consults_keyword_heuristic :
    adjacencyPairs mcCexFix = [] ∧
    match_images_to_links mcCexFix.images (find_makecode_links mcCexFix.sections)
      (some mcCexFix.sections) = [(0, "https://makecode.microbit.org/_AbCd123")] ∧
    replace_makecode_screenshots (fun _ => "shot.png") mcCexFix = mcCexFix := by
  decide

/-- C7 amended: the replacement stage consumes exactly the adjacency
heuristic's match set (`find_makecode_image_pairs`, modelled from the spec):
the map it uses pairs image `i` with link `l` iff image `i`'s `src` maps to
`l` in the adjacency dictionary, and whenever the adjacency heuristic finds
nothing the stage returns the content unchanged — the keyword heuristic
(`match_images_to_links`) is never consulted, not even as a fallback. -/
theorem replacer_uses_adjacency_only :
    ∀ (capPath : String → String) (c : ContentRec),
      (adjacencyPairs c = [] → replace_makecode_screenshots capPath c = c) ∧
      (∀ (i : Nat) (l : String),
        (i, l) ∈ replacer_image_link_map c ↔
          ∃ img, c.images.get? i = some img ∧
            lookupStr img.src (adjacencyPairs c) = some l) := by
  intro capPath c
  constructor
  · intro h
    simp [replace_makecode_screenshots, h]
  · intro i l
    simp only [replacer_image_link_map, List.mem_filterMap]
    constructor
    · rintro ⟨⟨j, img⟩, hmem, heq⟩
      rcases Option.map_eq_some'.1 heq with ⟨l', hl', hpair⟩
      have hj : j = i := congrArg Prod.fst hpair
      have hl2 : l' = l := congrArg Prod.snd hpair
      subst hj; subst hl2
      exact ⟨img, List.mk_mem_enum_iff_get?.1 hmem, hl'⟩
    · rintro ⟨img, hget, hl⟩
      exact ⟨(i, img), List.mk_mem_enum_iff_get?.2 hget, by simp [hl]⟩

/-- Witness for the amended C7 theorem: on `mcCexFix` the adjacency heuristic
finds nothing, so the replacer leaves the content unchanged. -/
theorem replacer_uses_adjacency_only_witness :
    replace_makecode_screenshots (fun _ => "other.png") mcCexFix = mcCexFix :=
  (replacer_uses_adjacency_only (fun _ => "other.png") mcCexFix).1 (by decide)

/-! ## qrcode lemmas: invalid URLs, empty inputs -/

theorem generate_qr_code_invalid (st : GenState) (url fname : List Char)
    (h : validUrl url = false) : generate_qr_code st url fname = (none, st) := by
  simp [generate_qr_code, h]

theorem generate_qr_code_valid (st : GenState) (url fname : List Char)
    (h : validUrl url = true) :
    ∃ ret st', generate_qr_code st url fname = (some ret, st') := by
  simp only [generate_qr_code, h, Bool.not_true, Bool.false_eq_true, if_false]
  cases lookupKey url st.cache with
  | none => exact ⟨fname, _, rfl⟩
  | some cached => exact ⟨cached, st, rfl⟩

theorem tryStd_head {l : List Char} {p : Nat × List Char} (h : tryStd l = some p) :
    ∃ rest, l = '[' :: rest := by
  cases l with
  | nil => simp [tryStd] at h
  | cons c rest =>
    by_cases hc : c = '['
    · exact ⟨rest, by rw [hc]⟩
    · simp [tryStd, hc] at h

theorem tryAuto_head {l : List Char} {p : Nat × List Char} (h : tryAuto l = some p) :
    ∃ rest, l = '<' :: rest := by
  cases l with
  | nil => simp [tryAuto] at h
  | cons c rest =>
    by_cases hc : c = '<'
    · exact ⟨rest, by rw [hc]⟩
    · simp [tryAuto, hc] at h

theorem finditerAux_all_space (try? : List Char → Option (Nat × List Char))
    (hhead : ∀ l p, try? l = some p →
      ∃ c rest, l = c :: rest ∧ pyIsSpace c = false) :
    ∀ (fuel : Nat) (l : List Char) (pos : Nat),
      (∀ c ∈ l, pyIsSpace c = true) → finditerAux try? fuel l pos = [] := by
  intro fuel
  induction fuel with
  | zero => intro l pos _; rfl
  | succ fuel ih =>
    intro l pos hsp
    cases l with
    | nil => rfl
    | cons c rest =>
      have hcs : pyIsSpace c = true := hsp c (List.mem_cons_self c rest)
      have hnone : try? (c :: rest) = none := by
        cases htry : try? (c :: rest) with
        | none => rfl
        | some p =>
          obtain ⟨c', r', heq, hf⟩ := hhead _ _ htry
          have : c' = c := (List.cons.injEq .. ▸ heq.symm).1
          rw [this] at hf
          rw [hcs] at hf
          exact Bool.noConfusion hf
      simp only [finditerAux, hnone]
      exact ih rest (pos + 1) (fun x hx => hsp x (List.mem_cons_of_mem c hx))

theorem pyStrip_nil_all_space {md : List Char} (h : pyStrip md = []) :
    ∀ c ∈ md, pyIsSpace c = true := by
  intro c hc
  unfold pyStrip at h
  rw [List.reverse_eq_nil_iff, List.dropWhile_eq_nil_iff] at h
  have hdrop : ∀ x ∈ md.dropWhile pyIsSpace, pyIsSpace x = true := by
    intro x hx
    exact h x (List.mem_reverse.2 hx)
  rcases List.mem_append.1
      ((List.takeWhile_append_dropWhile pyIsSpace md).symm ▸ hc) with hin | hin
  · exact List.mem_takeWhile_imp hin
  · exact hdrop c hin

theorem findStd_all_space {md : List Char} (h : ∀ c ∈ md, pyIsSpace c = true) :
    findStd md = [] := by
  apply finditerAux_all_space
  · intro l p hp
    obtain ⟨rest, hrest⟩ := tryStd_head hp
    exact ⟨'[', rest, hrest, by decide⟩
  · exact h

theorem findAuto_all_space {md : List Char} (h : ∀ c ∈ md, pyIsSpace c = true) :
    findAuto md = [] := by
  apply finditerAux_all_space
  · intro l p hp
    obtain ⟨rest, hrest⟩ := tryAuto_head hp
    exact ⟨'<', rest, hrest, by decide⟩
  · exact h

theorem allMatches_nil_of_strip {md : List Char} (h : pyStrip md = []) :
    allMatches md = [] := by
  unfold allMatches
  rw [findStd_all_space (pyStrip_nil_all_space h),
    findAuto_all_space (pyStrip_nil_all_space h)]
  rfl

/-! ## Claim C10: inputs with no links are returned unchanged -/

/-- C10: on an empty, whitespace-only or linkless markdown input,
`process_markdown_links` returns the input unchanged, an empty `QRCodeInfo`
list, and a generator state that wrote no files. -/
theorem process_markdown_links_no_links_identity :
    ∀ (cfg : QRConfig) (md : List Char),
      (md = [] ∨ pyStrip md = [] ∨ (findStd md = [] ∧ findAuto md = [])) →
      process_markdown_links cfg md = (md, [], emptyGen) ∧ emptyGen.files = [] := by
  intro cfg md h
  refine ⟨?_, rfl⟩
  unfold process_markdown_links
  rcases h with h | h | ⟨h1, h2⟩
  · simp [h]
  · simp [h]
  · by_cases he : md = [] ∨ pyStrip md = []
    · simp [he]
    · simp [he, h1, h2]

/-- Witness for C10 on a concrete linkless document. -/
theorem process_markdown_links_no_links_identity_witness :
    process_markdown_links qrCfgFix "hello world".data
      = ("hello world".data, [], emptyGen) ∧ emptyGen.files = [] :=
  process_markdown_links_no_links_identity qrCfgFix "hello world".data
    (Or.inr (Or.inr (by decide)))

/-! ## Claim C1: duplicate URLs, one file, dangling injected references -/

set_option maxRecDepth 100000 in
/-- C1 (code bug witness): processing a document that references
`https://example.com` twice writes exactly one PNG
(`qr_001_aaaaaaaa.png` — the cache returns it for the second occurrence,
and both QRCodeInfo.path fields point at it), yet the injected reference for
the second occurrence names `qr_002_aaaaaaaa.png`, a file that was never
created; the filename is also not a pure function of the URL alone, since the
per-occurrence index is baked into it. -/
theorem qr_duplicate_url_dangling_reference :
    (process_markdown_links qrCfgFix mdDupFix).2.2.files
        = ["qr_001_aaaaaaaa.png".data] ∧
    "qr_002_aaaaaaaa.png".data <:+: (process_markdown_links qrCfgFix mdDupFix).1 ∧
    (process_markdown_links qrCfgFix mdDupFix).2.1.map QRInfo.path
        = ["qrcodes/qr_001_aaaaaaaa.png".data, "qrcodes/qr_001_aaaaaaaa.png".data] ∧
    get_qr_filename qrCfgFix "https://example.com".data 1
      ≠ get_qr_filename qrCfgFix "https://example.com".data 2 := by
  decide

/-! ## processLoop characterizations -/

theorem insertAt_length (l : List Char) (p : Nat) (ins : List Char) :
    (insertAt l p ins).length = l.length + ins.length := by
  simp [insertAt]
  omega

theorem processLoop_infos (cfg : QRConfig) :
    ∀ (ems : List (Nat × LinkMatch)) (md : List Char) (off : Nat)
      (st : GenState) (infos : List QRInfo),
      ((processLoop cfg ems md off st infos).2.1).map (fun i => (i.url, i.index))
        = infos.map (fun i => (i.url, i.index))
          ++ ems.filterMap
              (fun p => if validUrl p.2.url then some (p.2.url, p.1) else none) := by
  intro ems
  induction ems with
  | nil => intro md off st infos; simp [processLoop]
  | cons p rest ih =>
    obtain ⟨idx, m⟩ := p
    intro md off st infos
    by_cases hv : validUrl m.url = true
    · obtain ⟨ret, st', hg⟩ :=
        generate_qr_code_valid st m.url (get_qr_filename cfg m.url idx) hv
      simp only [processLoop, hg]
      rw [ih]
      simp [hv]
    · have hvf : validUrl m.url = false := by simpa using hv
      simp only [processLoop, generate_qr_code_invalid st _ _ hvf]
      rw [ih]
      simp [hvf]

theorem processLoop_length (cfg : QRConfig) :
    ∀ (ems : List (Nat × LinkMatch)) (md : List Char) (off : Nat)
      (st : GenState) (infos : List QRInfo),
      (processLoop cfg ems md off st infos).1.length
        = md.length + shiftFrom cfg ems ems.length := by
  intro ems
  induction ems with
  | nil => intro md off st infos; simp [processLoop, shiftFrom]
  | cons p rest ih =>
    obtain ⟨idx, m⟩ := p
    intro md off st infos
    by_cases hv : validUrl m.url = true
    · obtain ⟨ret, st', hg⟩ :=
        generate_qr_code_valid st m.url (get_qr_filename cfg m.url idx) hv
      simp only [processLoop, hg]
      rw [ih]
      simp only [List.length_cons, shiftFrom, hv, if_true, insertAt_length, insStrOf]
      omega
    · have hvf : validUrl m.url = false := by simpa using hv
      simp only [processLoop, generate_qr_code_invalid st _ _ hvf]
      rw [ih]
      simp only [List.length_cons, shiftFrom, hvf, insStrOf, Bool.false_eq_true,
        if_false]
      omega

theorem process_markdown_links_eq (cfg : QRConfig) (md : List Char) :
    (allMatches md = [] ∧ process_markdown_links cfg md = (md, [], emptyGen)) ∨
    process_markdown_links cfg md
      = processLoop cfg (List.enumFrom 1 (allMatches md)) md 0 emptyGen [] := by
  unfold process_markdown_links
  by_cases h1 : md = [] ∨ pyStrip md = []
  · left
    refine ⟨?_, by simp [h1]⟩
    rcases h1 with h | h
    · subst h; rfl
    · exact allMatches_nil_of_strip h
  · by_cases h2 : findStd md = [] ∧ findAuto md = []
    · left
      refine ⟨?_, by simp [h1, h2]⟩
      unfold allMatches
      rw [h2.1, h2.2]
      rfl
    · right
      simp [h1, h2]
      rfl

/-! ## Claim C8: invalid URLs are skipped without effect -/

/-- C8: a URL whose parsed form lacks a scheme or host makes
`generate_qr_code` return a null result with the generator state (cache and
files) untouched, and in `process_markdown_links` such an occurrence gets no
`QRCodeInfo` entry and no injected reference, while every remaining link is
still processed: the recorded `(url, index)` pairs are exactly those of the
valid-URL matches with their original enumeration indices, and the output
length grows by exactly the reference strings of the valid matches. -/
theorem invalid_url_skipped :
    ∀ (cfg : QRConfig) (st : GenState) (url fname md : List Char),
      validUrl url = false →
      generate_qr_code st url fname = (none, st) ∧
      ((process_markdown_links cfg md).2.1.map (fun i => (i.url, i.index))
          = validUrlIdxPairs md) ∧
      (∀ info ∈ (process_markdown_links cfg md).2.1, validUrl info.url = true) ∧
      ((process_markdown_links cfg md).1.length
          = md.length + shiftFrom cfg (List.enumFrom 1 (allMatches md))
              (List.enumFrom 1 (allMatches md)).length) := by
  intro cfg st url fname md h
  have main2 : (process_markdown_links cfg md).2.1.map (fun i => (i.url, i.index))
      = validUrlIdxPairs md := by
    rcases process_markdown_links_eq cfg md with ⟨hnil, heq⟩ | heq
    · rw [heq]
      simp [validUrlIdxPairs, hnil]
    · rw [heq, processLoop_infos]
      simp [validUrlIdxPairs]
  refine ⟨generate_qr_code_invalid st url fname h, main2, ?_, ?_⟩
  · intro info hinfo
    have hmem : (info.url, info.index)
        ∈ (process_markdown_links cfg md).2.1.map (fun i => (i.url, i.index)) :=
      List.mem_map_of_mem _ hinfo
    rw [main2] at hmem
    unfold validUrlIdxPairs at hmem
    rcases List.mem_filterMap.1 hmem with ⟨p, _, hp⟩
    by_cases hv : validUrl p.2.url = true
    · rw [if_pos hv] at hp
      have : p.2.url = info.url := congrArg Prod.fst (Option.some.inj hp)
      rw [← this]
      exact hv
    · rw [if_neg hv] at hp
      exact Option.noConfusion hp
  · rcases process_markdown_links_eq cfg md with ⟨hnil, heq⟩ | heq
    · rw [heq, hnil]
      simp [shiftFrom]
    · rw [heq, processLoop_length]

/-- Witness for C8 at a concrete invalid URL and a concrete document. -/
theorem invalid_url_skipped_witness :
    generate_qr_code emptyGen "notaurl".data "f.png".data = (none, emptyGen) ∧
    ((process_markdown_links qrCfgFix mdDupFix).2.1.map (fun i => (i.url, i.index))
        = validUrlIdxPairs mdDupFix) ∧
    (∀ info ∈ (process_markdown_links qrCfgFix mdDupFix).2.1,
        validUrl info.url = true) ∧
    ((process_markdown_links qrCfgFix mdDupFix).1.length
        = mdDupFix.length + shiftFrom qrCfgFix
            (List.enumFrom 1 (allMatches mdDupFix))
            (List.enumFrom 1 (allMatches mdDupFix)).length) :=
  invalid_url_skipped qrCfgFix emptyGen "notaurl".data "f.png".data mdDupFix (by decide)

/-! ## Scanner bounds and sort membership -/

theorem tryStd_bounds {l : List Char} {n : Nat} {u : List Char}
    (h : tryStd l = some (n, u)) : 0 < n ∧ n ≤ l.length := by
  cases l with
  | nil => simp [tryStd] at h
  | cons c rest =>
    simp only [tryStd] at h
    by_cases hc : c = '['
    · rw [if_pos hc] at h
      set t := rest.takeWhile (fun d => d ≠ ']') with ht
      by_cases h0 : t.length = 0
      · rw [if_pos h0] at h; exact Option.noConfusion h
      · rw [if_neg h0] at h
        rcases hdrop : rest.drop t.length with _ | ⟨c1, _ | ⟨c2, rest2⟩⟩ <;>
          rw [hdrop] at h
        · exact Option.noConfusion h
        · exact Option.noConfusion h
        · dsimp only at h
          by_cases h12 : (c1 = ']' && c2 = '(') = true
          · rw [if_pos h12] at h
            set uu := rest2.takeWhile (fun d => d ≠ ')') with hu
            by_cases hu0 : uu.length = 0
            · rw [if_pos hu0] at h; exact Option.noConfusion h
            · rw [if_neg hu0] at h
              rcases hdrop2 : rest2.drop uu.length with _ | ⟨c3, tail⟩ <;>
                rw [hdrop2] at h
              · exact Option.noConfusion h
              · dsimp only at h
                by_cases h3 : c3 = ')'
                · rw [if_pos h3] at h
                  have hn : t.length + uu.length + 4 = n :=
                    congrArg Prod.fst (Option.some.inj h)
                  have hlt : t.length ≤ rest.length :=
                    ht ▸ (List.takeWhile_prefix _).length_le
                  have hc2 : rest.length - t.length = rest2.length + 2 := by
                    have := congrArg List.length hdrop
                    simpa [List.length_drop] using this
                  have hlu : uu.length ≤ rest2.length :=
                    hu ▸ (List.takeWhile_prefix _).length_le
                  have hc3 : rest2.length - uu.length = tail.length + 1 := by
                    have := congrArg List.length hdrop2
                    simpa [List.length_drop] using this
                  simp only [List.length_cons]
                  omega
                · rw [if_neg h3] at h; exact Option.noConfusion h
          · rw [if_neg h12] at h; exact Option.noConfusion h
    · rw [if_neg hc] at h; exact Option.noConfusion h

theorem tryAuto_bounds {l : List Char} {n : Nat} {u : List Char}
    (h : tryAuto l = some (n, u)) : 0 < n ∧ n ≤ l.length := by
  cases l with
  | nil => simp [tryAuto] at h
  | cons c rest =>
    simp only [tryAuto] at h
    by_cases hc : c = '<'
    · rw [if_pos hc] at h
      set body := rest.takeWhile (fun d => d ≠ '>') with hb
      rcases hdrop : rest.drop body.length with _ | ⟨c1, tail⟩ <;> rw [hdrop] at h
      · exact Option.noConfusion h
      · dsimp only at h
        by_cases hcond : (c1 = '>' &&
            (("https://".data.isPrefixOf body && decide (8 < body.length)) ||
             ("http://".data.isPrefixOf body && decide (7 < body.length)))) = true
        · rw [if_pos hcond] at h
          have hn : body.length + 2 = n := congrArg Prod.fst (Option.some.inj h)
          have hlb : body.length ≤ rest.length :=
            hb ▸ (List.takeWhile_prefix _).length_le
          have hc2 : rest.length - body.length = tail.length + 1 := by
            have := congrArg List.length hdrop
            simpa [List.length_drop] using this
          simp only [List.length_cons]
          omega
        · rw [if_neg hcond] at h; exact Option.noConfusion h
    · rw [if_neg hc] at h; exact Option.noConfusion h

theorem finditerAux_bounds (try? : List Char → Option (Nat × List Char))
    (hb : ∀ (l : List Char) (n : Nat) (u : List Char),
      try? l = some (n, u) → 0 < n ∧ n ≤ l.length) :
    ∀ (fuel : Nat) (l : List Char) (pos : Nat) (m : LinkMatch),
      m ∈ finditerAux try? fuel l pos →
      pos ≤ m.start ∧ m.start < m.stop ∧ m.stop ≤ pos + l.length := by
  intro fuel
  induction fuel with
  | zero => intro l pos m hm; simp [finditerAux] at hm
  | succ fuel ih =>
    intro l pos m hm
    cases l with
    | nil => simp [finditerAux] at hm
    | cons c rest =>
      cases htry : try? (c :: rest) with
      | none =>
        simp only [finditerAux, htry] at hm
        have := ih rest (pos + 1) m hm
        simp only [List.length_cons]
        omega
      | some p =>
        obtain ⟨n, u⟩ := p
        simp only [finditerAux, htry] at hm
        rcases List.mem_cons.1 hm with rfl | hm'
        · obtain ⟨h1, h2⟩ := hb _ _ _ htry
          simp only [List.length_cons] at h2 ⊢
          exact ⟨Nat.le_refl _, by omega, by omega⟩
        · have hrec := ih _ (pos + n) m hm'
          obtain ⟨h1, h2⟩ := hb _ _ _ htry
          simp only [List.length_drop, List.length_cons] at hrec h2 ⊢
          omega

theorem mem_insertByStart {m x : LinkMatch} :
    ∀ {l : List LinkMatch}, x ∈ insertByStart m l ↔ x = m ∨ x ∈ l := by
  intro l
  induction l with
  | nil => simp [insertByStart]
  | cons y ys ih =>
    simp only [insertByStart]
    by_cases hle : m.start ≤ y.start
    · simp [hle, List.mem_cons]
    · simp only [hle, if_false, List.mem_cons, ih]
      tauto

theorem mem_sortByStart {x : LinkMatch} :
    ∀ {l : List LinkMatch}, x ∈ sortByStart l → x ∈ l := by
  intro l
  induction l with
  | nil => simp [sortByStart]
  | cons y ys ih =>
    intro hx
    simp only [sortByStart] at hx
    rcases mem_insertByStart.1 hx with rfl | hx'
    · exact List.mem_cons_self _ _
    · exact List.mem_cons_of_mem _ (ih hx')

theorem allMatches_bounds {md : List Char} :
    ∀ m ∈ allMatches md, m.start < m.stop ∧ m.stop ≤ md.length := by
  intro m hm
  have hm' := mem_sortByStart hm
  rcases List.mem_append.1 hm' with h | h
  · have hres := finditerAux_bounds tryStd (fun _ _ _ h => tryStd_bounds h)
      md.length md 0 m h
    exact ⟨hres.2.1, by omega⟩
  · have hres := finditerAux_bounds tryAuto (fun _ _ _ h => tryAuto_bounds h)
      md.length md 0 m h
    exact ⟨hres.2.1, by omega⟩

/-! ## Pairwise facts on the sorted, enumerated match list -/

theorem nonOverlapping_pairwise :
    ∀ {ms : List LinkMatch}, (∀ m ∈ ms, m.start < m.stop) →
      nonOverlapping ms = true →
      List.Pairwise (fun a b : LinkMatch => a.stop ≤ b.start) ms := by
  intro ms
  induction ms with
  | nil => intro _ _; exact List.Pairwise.nil
  | cons a t ih =>
    intro hb h
    cases t with
    | nil => exact List.pairwise_singleton _ _
    | cons b t2 =>
      simp only [nonOverlapping, Bool.and_eq_true, decide_eq_true_eq] at h
      have hp2 := ih (fun m hm => hb m (List.mem_cons_of_mem a hm)) h.2
      refine List.Pairwise.cons ?_ hp2
      intro x hx
      rcases List.mem_cons.1 hx with rfl | hx2
      · exact h.1
      · have hb2 : b.stop ≤ x.start := (List.pairwise_cons.1 hp2).1 x hx2
        have hbb : b.start < b.stop := hb b (by simp)
        omega

theorem enumFrom_snd_mem {k : Nat} {ms : List LinkMatch} {p : Nat × LinkMatch}
    (h : p ∈ List.enumFrom k ms) : p.2 ∈ ms := by
  obtain ⟨i, x⟩ := p
  have hx := List.mem_enumFrom h
  rw [hx.2.2]
  exact List.getElem_mem _

theorem pairwise_enumFrom {R : LinkMatch → LinkMatch → Prop} :
    ∀ (k : Nat) {ms : List LinkMatch}, List.Pairwise R ms →
      List.Pairwise (fun p q : Nat × LinkMatch => R p.2 q.2)
        (List.enumFrom k ms) := by
  intro k ms
  induction ms generalizing k with
  | nil => intro _; exact List.Pairwise.nil
  | cons a t ih =>
    intro h
    show List.Pairwise _ ((k, a) :: List.enumFrom (k + 1) t)
    refine List.Pairwise.cons ?_ (ih (k + 1) (List.pairwise_cons.1 h).2)
    intro q hq
    exact (List.pairwise_cons.1 h).1 q.2 (enumFrom_snd_mem hq)

/-! ## Splicing helpers -/

theorem take_append_left (A B : List Char) (k : Nat) :
    (A ++ B).take (A.length + k) = A ++ B.take k := by
  rw [List.take_append_eq_append_take, List.take_of_length_le (by omega)]
  congr 1
  congr 1
  omega

theorem drop_append_left (A B : List Char) (k : Nat) :
    (A ++ B).drop (A.length + k) = B.drop k := by
  rw [List.drop_append_eq_append_drop, List.drop_eq_nil_of_le (by omega)]
  simp only [List.nil_append]
  congr 1
  omega

theorem insertAt_append (A B ins : List Char) (k : Nat) :
    insertAt (A ++ B) (A.length + k) ins = A ++ insertAt B k ins := by
  unfold insertAt
  rw [take_append_left, drop_append_left]
  simp [List.append_assoc]

/-! ## The processed markdown decomposes into splice form -/

theorem processLoop_markdown (cfg : QRConfig) (md : List Char) :
    ∀ (ems : List (Nat × LinkMatch)) (C : List Char) (base off : Nat)
      (st : GenState) (infos : List QRInfo),
      C.length = base + off →
      (∀ p ∈ ems, base ≤ p.2.start ∧ p.2.start < p.2.stop ∧ p.2.stop ≤ md.length) →
      List.Pairwise (fun p q : Nat × LinkMatch => p.2.stop ≤ q.2.start) ems →
      (processLoop cfg ems (C ++ md.drop base) off st infos).1
        = C ++ expectedOut cfg md base ems := by
  intro ems
  induction ems with
  | nil =>
    intro C base off st infos _ _ _
    simp [processLoop, expectedOut]
  | cons p rest ih =>
    obtain ⟨idx, m⟩ := p
    intro C base off st infos hC hb hpw
    have hbm := hb (idx, m) (List.mem_cons_self _ _)
    have hb1 : base ≤ m.start := hbm.1
    have hb2 : m.start < m.stop := hbm.2.1
    have hb3 : m.stop ≤ md.length := hbm.2.2
    have hbrest : ∀ q ∈ rest,
        base ≤ q.2.start ∧ q.2.start < q.2.stop ∧ q.2.stop ≤ md.length :=
      fun q hq => hb q (List.mem_cons_of_mem _ hq)
    have hpwrest := (List.pairwise_cons.1 hpw).2
    have hhead : ∀ q ∈ rest, m.stop ≤ q.2.start :=
      fun q hq => (List.pairwise_cons.1 hpw).1 q hq
    by_cases hv : validUrl m.url = true
    · obtain ⟨ret, st', hg⟩ :=
        generate_qr_code_valid st m.url (get_qr_filename cfg m.url idx) hv
      simp only [processLoop, hg]
      have hpos : m.stop + off = C.length + (m.stop - base) := by omega
      rw [hpos, insertAt_append]
      have hins : insertAt (md.drop base) (m.stop - base)
            (qrImgString cfg (get_qr_filename cfg m.url idx))
          = (md.drop base).take (m.stop - base)
            ++ qrImgString cfg (get_qr_filename cfg m.url idx) ++ md.drop m.stop := by
        unfold insertAt
        rw [List.drop_drop]
        rw [show base + (m.stop - base) = m.stop by omega]
      rw [hins]
      rw [show C ++ ((md.drop base).take (m.stop - base)
            ++ qrImgString cfg (get_qr_filename cfg m.url idx) ++ md.drop m.stop)
          = (C ++ (md.drop base).take (m.stop - base)
            ++ qrImgString cfg (get_qr_filename cfg m.url idx)) ++ md.drop m.stop by
        simp [List.append_assoc]]
      have hC' : (C ++ (md.drop base).take (m.stop - base)
            ++ qrImgString cfg (get_qr_filename cfg m.url idx)).length
          = m.stop + (off + (qrImgString cfg (get_qr_filename cfg m.url idx)).length) := by
        simp only [List.length_append, List.length_take, List.length_drop]
        omega
      rw [ih _ m.stop _ st' _ hC'
        (fun q hq => ⟨hhead q hq, (hbrest q hq).2.1, (hbrest q hq).2.2⟩) hpwrest]
      simp only [expectedOut, hv, if_true, insStrOf]
      simp [List.append_assoc]
    · have hvf : validUrl m.url = false := by simpa using hv
      simp only [processLoop, generate_qr_code_invalid st _ _ hvf]
      rw [ih C base off st infos hC hbrest hpwrest]
      simp [expectedOut, hvf]

/-! ## Reading the expected output around and after each match -/

theorem expectedOut_take_pref (cfg : QRConfig) (md : List Char) :
    ∀ (ems : List (Nat × LinkMatch)) (base q t : Nat),
      base ≤ q → q + t ≤ md.length →
      (∀ p ∈ ems, q + t ≤ p.2.start ∧ p.2.start < p.2.stop ∧ p.2.stop ≤ md.length
        ∧ base ≤ p.2.start) →
      ((expectedOut cfg md base ems).drop (q - base)).take t = (md.drop q).take t := by
  intro ems
  induction ems with
  | nil =>
    intro base q t hbq hqt _
    simp only [expectedOut]
    rw [List.drop_drop, show base + (q - base) = q by omega]
  | cons p rest ih =>
    obtain ⟨idx, m⟩ := p
    intro base q t hbq hqt hc
    have hcm := hc (idx, m) (List.mem_cons_self _ _)
    have h1 : q + t ≤ m.start := hcm.1
    have h2 : m.start < m.stop := hcm.2.1
    have h3 : m.stop ≤ md.length := hcm.2.2.1
    have h4 : base ≤ m.start := hcm.2.2.2
    by_cases hv : validUrl m.url = true
    · simp only [expectedOut, hv, if_true]
      rw [List.append_assoc, List.drop_append_eq_append_drop]
      have hlenchunk : ((md.drop base).take (m.stop - base)).length = m.stop - base := by
        simp only [List.length_take, List.length_drop]
        omega
      rw [show (q - base) - ((md.drop base).take (m.stop - base)).length = 0 by
        rw [hlenchunk]; omega]
      rw [List.drop_take, List.drop_drop,
        show (m.stop - base) - (q - base) = m.stop - q by omega,
        show base + (q - base) = q by omega]
      rw [List.take_append_eq_append_take]
      have hlen2 : ((md.drop q).take (m.stop - q)).length = m.stop - q := by
        simp only [List.length_take, List.length_drop]
        omega
      rw [show t - ((md.drop q).take (m.stop - q)).length = 0 by rw [hlen2]; omega]
      rw [List.take_zero, List.append_nil, List.take_take,
        show t ⊓ (m.stop - q) = t by omega]
    · have hvf : validUrl m.url = false := by simpa using hv
      simp only [expectedOut, hvf, Bool.false_eq_true, if_false]
      exact ih base q t hbq hqt (fun p hp => hc p (List.mem_cons_of_mem _ hp))

theorem expectedOut_spec (cfg : QRConfig) (md : List Char) :
    ∀ (ems : List (Nat × LinkMatch)) (base : Nat),
      (∀ p ∈ ems, base ≤ p.2.start ∧ p.2.start < p.2.stop ∧ p.2.stop ≤ md.length) →
      List.Pairwise (fun p q : Nat × LinkMatch => p.2.stop ≤ q.2.start) ems →
      ∀ (k : Nat) (hk : k < ems.length),
        (((expectedOut cfg md base ems).drop
            (((ems.get ⟨k, hk⟩).2.start - base) + shiftFrom cfg ems k)).take
            ((ems.get ⟨k, hk⟩).2.stop - (ems.get ⟨k, hk⟩).2.start)
          = (md.drop (ems.get ⟨k, hk⟩).2.start).take
              ((ems.get ⟨k, hk⟩).2.stop - (ems.get ⟨k, hk⟩).2.start)) ∧
        (validUrl (ems.get ⟨k, hk⟩).2.url = true →
          insStrOf cfg (ems.get ⟨k, hk⟩) <+:
            (expectedOut cfg md base ems).drop
              (((ems.get ⟨k, hk⟩).2.stop - base) + shiftFrom cfg ems k)) := by
  intro ems
  induction ems with
  | nil => intro base _ _ k hk; exact absurd hk (by simp)
  | cons p rest ih =>
    obtain ⟨idx, m⟩ := p
    intro base hb hpw k hk
    have hbm := hb (idx, m) (List.mem_cons_self _ _)
    have h4 : base ≤ m.start := hbm.1
    have h2 : m.start < m.stop := hbm.2.1
    have h3 : m.stop ≤ md.length := hbm.2.2
    have hbrest : ∀ q ∈ rest,
        base ≤ q.2.start ∧ q.2.start < q.2.stop ∧ q.2.stop ≤ md.length :=
      fun q hq => hb q (List.mem_cons_of_mem _ hq)
    have hpwrest := (List.pairwise_cons.1 hpw).2
    have hhead : ∀ q ∈ rest, m.stop ≤ q.2.start :=
      fun q hq => (List.pairwise_cons.1 hpw).1 q hq
    have hlenchunk : ((md.drop base).take (m.stop - base)).length = m.stop - base := by
      simp only [List.length_take, List.length_drop]
      omega
    cases k with
    | zero =>
      have hget : (((idx, m) :: rest).get ⟨0, hk⟩) = (idx, m) := rfl
      rw [hget]
      by_cases hv : validUrl m.url = true
      · constructor
        · simp only [expectedOut, hv, if_true, shiftFrom, Nat.add_zero]
          rw [List.append_assoc, List.drop_append_eq_append_drop]
          rw [show (m.start - base)
              - ((md.drop base).take (m.stop - base)).length = 0 by
            rw [hlenchunk]; omega]
          rw [List.drop_take, List.drop_drop,
            show (m.stop - base) - (m.start - base) = m.stop - m.start by omega,
            show base + (m.start - base) = m.start by omega]
          rw [List.take_append_eq_append_take]
          have hlen2 : ((md.drop m.start).take (m.stop - m.start)).length
              = m.stop - m.start := by
            simp only [List.length_take, List.length_drop]
            omega
          rw [show (m.stop - m.start)
              - ((md.drop m.start).take (m.stop - m.start)).length = 0 by
            rw [hlen2]; omega]
          rw [List.take_zero, List.append_nil, List.take_take,
            show (m.stop - m.start) ⊓ (m.stop - m.start) = m.stop - m.start by omega]
        · intro _
          simp only [expectedOut, hv, if_true, shiftFrom, Nat.add_zero]
          rw [List.append_assoc, List.drop_append_eq_append_drop]
          rw [show (m.stop - base)
              - ((md.drop base).take (m.stop - base)).length = 0 by
            rw [hlenchunk]; omega]
          rw [show ((md.drop base).take (m.stop - base)).drop (m.stop - base)
              = [] by
            apply List.drop_eq_nil_of_le
            rw [hlenchunk]]
          rw [List.nil_append, List.drop_zero]
          exact List.prefix_append _ _
      · have hvf : validUrl m.url = false := by simpa using hv
        constructor
        · simp only [expectedOut, hvf, Bool.false_eq_true, if_false, shiftFrom,
            Nat.add_zero]
          apply expectedOut_take_pref cfg md rest base m.start (m.stop - m.start)
            h4 (by omega)
          intro p hp
          have hbp := hbrest p hp
          have hhp := hhead p hp
          exact ⟨by omega, hbp.2.1, hbp.2.2, hbp.1⟩
        · intro hvv
          rw [hvf] at hvv
          exact Bool.noConfusion hvv
    | succ k' =>
      have hk' : k' < rest.length := by
        simp only [List.length_cons] at hk
        omega
      have hget : (((idx, m) :: rest).get ⟨k' + 1, hk⟩) = rest.get ⟨k', hk'⟩ := rfl
      rw [hget]
      have hpmem : rest.get ⟨k', hk'⟩ ∈ rest := List.get_mem _ _ _
      have hbp := hbrest _ hpmem
      have hbp1 : m.stop ≤ (rest.get ⟨k', hk'⟩).2.start := hhead _ hpmem
      by_cases hv : validUrl m.url = true
      · have ihres := ih m.stop
          (fun q hq => ⟨hhead q hq, (hbrest q hq).2.1, (hbrest q hq).2.2⟩)
          hpwrest k' hk'
        constructor
        · simp only [expectedOut, hv, if_true, shiftFrom]
          rw [List.append_assoc]
          rw [show ((rest.get ⟨k', hk'⟩).2.start - base)
                + ((insStrOf cfg (idx, m)).length + shiftFrom cfg rest k')
              = ((md.drop base).take (m.stop - base)).length
                + ((insStrOf cfg (idx, m)).length
                  + (((rest.get ⟨k', hk'⟩).2.start - m.stop)
                    + shiftFrom cfg rest k')) by
            rw [hlenchunk]
            omega]
          rw [drop_append_left, drop_append_left]
          exact ihres.1
        · intro hvp
          simp only [expectedOut, hv, if_true, shiftFrom]
          rw [List.append_assoc]
          rw [show ((rest.get ⟨k', hk'⟩).2.stop - base)
                + ((insStrOf cfg (idx, m)).length + shiftFrom cfg rest k')
              = ((md.drop base).take (m.stop - base)).length
                + ((insStrOf cfg (idx, m)).length
                  + (((rest.get ⟨k', hk'⟩).2.stop - m.stop)
                    + shiftFrom cfg rest k')) by
            rw [hlenchunk]
            omega]
          rw [drop_append_left, drop_append_left]
          exact ihres.2 hvp
      · have hvf : validUrl m.url = false := by simpa using hv
        have ihres := ih base hbrest hpwrest k' hk'
        constructor
        · simp only [expectedOut, hvf, Bool.false_eq_true, if_false, shiftFrom,
            Nat.zero_add]
          exact ihres.1
        · intro hvp
          simp only [expectedOut, hvf, Bool.false_eq_true, if_false, shiftFrom,
            Nat.zero_add]
          exact ihres.2 hvp

/-! ## Claim C2: injection correctness -/

set_option maxRecDepth 400000 in
/-- C2 counterexample: the claim fails when a standard link's text contains an
autolink, so the two regex matches overlap.  On `mdOverlapFix` the autolink
`<https://a.com>` occupies positions 5-20, its URL is valid and an artifact
reference is generated for it (two QRCodeInfo entries), the text up to
position 20 is unchanged in the output, yet no artifact reference immediately
follows the autolink: the running offset already counts the whole-line match's
insertion, which sits after the autolink, so the autolink's reference lands
inside the other injected string. -/
theorem injection_overlapping_matches_cex :
    ((process_markdown_links qrCfgFix mdOverlapFix).1.take 20
        = mdOverlapFix.take 20) ∧
    ¬(qrImgString qrCfgFix (get_qr_filename qrCfgFix "https://a.com".data 2)
        <+: (process_markdown_links qrCfgFix mdOverlapFix).1.drop 20) ∧
    (allMatches mdOverlapFix).map (fun m => (m.start, m.stop))
        = [(0, 39), (5, 20)] ∧
    validUrl "https://a.com".data = true ∧
    (process_markdown_links qrCfgFix mdOverlapFix).2.1.length = 2 := by
  decide

/-- C2 amended: provided the located link occurrences do not overlap (every
match ends no later than the next one starts — true whenever no autolink sits
inside a standard link's text or URL), the running-offset injection is
position-preserving: for the `k`-th match (0-based; the loop enumerates from
1, so its reference index is `1 + k`), the original link substring sits
unmodified in the output at its start position shifted by the lengths of the
references injected for the valid matches before it, it is in particular
still an infix of the output, and for a valid URL the injected reference
begins immediately after the shifted match end. -/
theorem process_markdown_links_injection (cfg : QRConfig) (md : List Char)
    (hch : nonOverlapping (allMatches md) = true) (k : Nat)
    (hk : k < (allMatches md).length) :
    ((((process_markdown_links cfg md).1).drop
        (((allMatches md).get ⟨k, hk⟩).start
          + shiftFrom cfg (List.enumFrom 1 (allMatches md)) k)).take
        (((allMatches md).get ⟨k, hk⟩).stop - ((allMatches md).get ⟨k, hk⟩).start)
      = (md.drop ((allMatches md).get ⟨k, hk⟩).start).take
          (((allMatches md).get ⟨k, hk⟩).stop
            - ((allMatches md).get ⟨k, hk⟩).start)) ∧
    ((md.drop ((allMatches md).get ⟨k, hk⟩).start).take
        (((allMatches md).get ⟨k, hk⟩).stop - ((allMatches md).get ⟨k, hk⟩).start)
      <:+: (process_markdown_links cfg md).1) ∧
    (validUrl ((allMatches md).get ⟨k, hk⟩).url = true →
      qrImgString cfg (get_qr_filename cfg ((allMatches md).get ⟨k, hk⟩).url (1 + k))
        <+: ((process_markdown_links cfg md).1).drop
          (((allMatches md).get ⟨k, hk⟩).stop
            + shiftFrom cfg (List.enumFrom 1 (allMatches md)) k)) := by
  have hne : allMatches md ≠ [] := by
    intro h
    rw [h] at hk
    simp at hk
  have heq : process_markdown_links cfg md
      = processLoop cfg (List.enumFrom 1 (allMatches md)) md 0 emptyGen [] := by
    rcases process_markdown_links_eq cfg md with ⟨hnil, _⟩ | heq
    · exact absurd hnil hne
    · exact heq
  have hbnd : ∀ m ∈ allMatches md, m.start < m.stop ∧ m.stop ≤ md.length :=
    allMatches_bounds
  have hpw := nonOverlapping_pairwise (fun m hm => (hbnd m hm).1) hch
  have hbE : ∀ p ∈ List.enumFrom 1 (allMatches md),
      0 ≤ p.2.start ∧ p.2.start < p.2.stop ∧ p.2.stop ≤ md.length :=
    fun p hp => ⟨Nat.zero_le _, (hbnd p.2 (enumFrom_snd_mem hp)).1,
      (hbnd p.2 (enumFrom_snd_mem hp)).2⟩
  have hpwE := pairwise_enumFrom 1 hpw
  have hout : (process_markdown_links cfg md).1
      = expectedOut cfg md 0 (List.enumFrom 1 (allMatches md)) := by
    rw [heq]
    have hdec := processLoop_markdown cfg md (List.enumFrom 1 (allMatches md))
      [] 0 0 emptyGen [] rfl hbE hpwE
    simpa using hdec
  have hkE : k < (List.enumFrom 1 (allMatches md)).length := by
    rw [List.enumFrom_length]
    exact hk
  have hget : (List.enumFrom 1 (allMatches md)).get ⟨k, hkE⟩
      = (1 + k, (allMatches md).get ⟨k, hk⟩) :=
    List.get_enumFrom (allMatches md) 1 ⟨k, hkE⟩
  have hspec := expectedOut_spec cfg md (List.enumFrom 1 (allMatches md)) 0
    hbE hpwE k hkE
  rw [hget] at hspec
  dsimp only at hspec
  simp only [Nat.sub_zero] at hspec
  refine ⟨?_, ?_, ?_⟩
  · rw [hout]
    exact hspec.1
  · have h1 : (md.drop ((allMatches md).get ⟨k, hk⟩).start).take
        (((allMatches md).get ⟨k, hk⟩).stop - ((allMatches md).get ⟨k, hk⟩).start)
        = (((process_markdown_links cfg md).1).drop
            (((allMatches md).get ⟨k, hk⟩).start
              + shiftFrom cfg (List.enumFrom 1 (allMatches md)) k)).take
            (((allMatches md).get ⟨k, hk⟩).stop
              - ((allMatches md).get ⟨k, hk⟩).start) := by
      rw [hout]
      exact hspec.1.symm
    rw [h1]
    exact (List.take_prefix _ _).isInfix.trans (List.drop_suffix _ _).isInfix
  · intro hvv
    rw [hout]
    exact hspec.2 hvv

/-- Witness for the amended C2 theorem on a single-link document. -/
theorem process_markdown_links_injection_witness :
    ((((process_markdown_links qrCfgFix mdSingleFix).1).drop
        (((allMatches mdSingleFix).get ⟨0, by decide⟩).start
          + shiftFrom qrCfgFix (List.enumFrom 1 (allMatches mdSingleFix)) 0)).take
        (((allMatches mdSingleFix).get ⟨0, by decide⟩).stop
          - ((allMatches mdSingleFix).get ⟨0, by decide⟩).start)
      = (mdSingleFix.drop ((allMatches mdSingleFix).get ⟨0, by decide⟩).start).take
          (((allMatches mdSingleFix).get ⟨0, by decide⟩).stop
            - ((allMatches mdSingleFix).get ⟨0, by decide⟩).start)) ∧
    ((mdSingleFix.drop ((allMatches mdSingleFix).get ⟨0, by decide⟩).start).take
        (((allMatches mdSingleFix).get ⟨0, by decide⟩).stop
          - ((allMatches mdSingleFix).get ⟨0, by decide⟩).start)
      <:+: (process_markdown_links qrCfgFix mdSingleFix).1) ∧
    (validUrl ((allMatches mdSingleFix).get ⟨0, by decide⟩).url = true →
      qrImgString qrCfgFix
          (get_qr_filename qrCfgFix
            ((allMatches mdSingleFix).get ⟨0, by decide⟩).url (1 + 0))
        <+: ((process_markdown_links qrCfgFix mdSingleFix).1).drop
          (((allMatches mdSingleFix).get ⟨0, by decide⟩).stop
            + shiftFrom qrCfgFix (List.enumFrom 1 (allMatches mdSingleFix)) 0)) :=
  process_markdown_links_injection qrCfgFix mdSingleFix (by decide) 0 (by decide)
